import Mathlib

/-!
Verification of the lazy interval-refinement real-arithmetic library
(`real_data.hpp` precision iterator, `real.hpp` prototype iterator,
`real_explicit.hpp`).

Values of `exact_number<T>` (sign, base-`B` digit vector, exponent) are
modelled by their rational value.  Operations whose source is in the
repository (`update_operation_boundaries`, `operation_iterate`,
`operation_iterate_n_times`, `real::iterator`, `real_explicit::operator[]`)
are transcribed below; helpers whose source is not in the repository
(`exact_number::up_to`, `interval::positive/negative`) are modelled from the
specification's contracts and carry a doc comment saying so.
-/

namespace BoostReal

/-! ## The model: data and transcribed operations -/

/-- Fuel-driven search used by `qexp`: for `0 < q < 1`, the number of times
`q` must be scaled by `B` to reach `1` (so `B ^ -(result) ≤ q`). -/
def qexpSmall (B : ℕ) : ℕ → ℚ → ℕ
  | 0, _ => 0
  | fuel + 1, q => if 1 ≤ q then 0 else qexpSmall B fuel (q * B) + 1

/-- Fuel-driven search used by `qexp`: for `1 ≤ q`, the least `k ≥ 1` with
`q < B ^ k`. -/
def qexpBig (B : ℕ) : ℕ → ℚ → ℕ
  | 0, _ => 1
  | fuel + 1, q => if q < B then 1 else qexpBig B fuel (q / B) + 1

/-- Modelled from the spec: the exponent of a Digit Number (position of its
leading digit), `B^(e-1) ≤ |x| < B^e` for `x ≠ 0`.  The source's
`exact_number` stores this field explicitly; it is not under `src/`, so it is
recomputed here from the rational value.  The fuel bounds are generous upper
bounds on the number of scaling steps required. -/
def qexp (B : ℕ) (x : ℚ) : ℤ :=
  if |x| < 1 then 1 - qexpSmall B (|x|).den |x|
  else (qexpBig B (|x|).num.natAbs |x| : ℤ)

/-- Integer powers of the base as rationals (avoiding `zpow` so that concrete
evaluations go through `norm_num`). -/
def zpowB (B : ℕ) (e : ℤ) : ℚ :=
  if 0 ≤ e then (B : ℚ) ^ e.natAbs else 1 / (B : ℚ) ^ e.natAbs

/-- Modelled from the spec: `exact_number::up_to(p, round_up)`
(`truncate_to` in the spec), which is not under `src/`.  Spec contract: a
value with at most `p` base-`B` digits, equal to the original rounded toward
`+∞` when `round_up` and toward `-∞` otherwise.  Rounding happens at the
scale `B^(e-p)` where `e` is the exponent of `x`. -/
def upTo (B : ℕ) (x : ℚ) (p : ℕ) (roundUp : Bool) : ℚ :=
  if x = 0 then 0
  else
    let s := zpowB B (qexp B x - p)
    if roundUp then ⌈x / s⌉ * s else ⌊x / s⌋ * s

/-- The value of a `boost::real::interval`: a pair of Digit-Number values. -/
structure QInterval where
  lower : ℚ
  upper : ℚ
  deriving DecidableEq

/-- Modelled from the spec: `interval::positive()` ⇔ the lower bound is a
positive number (`lower.sign = true ∧ lower ≠ 0`). -/
def QInterval.positiveP (I : QInterval) : Prop := 0 < I.lower

/-- Modelled from the spec: `interval::negative()` ⇔ the upper bound is a
negative number (`upper.sign = false ∧ upper ≠ 0`). -/
def QInterval.negativeP (I : QInterval) : Prop := I.upper < 0

instance (I : QInterval) : Decidable I.positiveP := by
  unfold QInterval.positiveP; infer_instance

instance (I : QInterval) : Decidable I.negativeP := by
  unfold QInterval.negativeP; infer_instance

/-- `!positive() && !negative()`: the interval (weakly) contains zero. -/
def QInterval.containsZeroP (I : QInterval) : Prop :=
  ¬I.positiveP ∧ ¬I.negativeP

instance (I : QInterval) : Decidable I.containsZeroP := by
  unfold QInterval.containsZeroP; infer_instance

/-- Operator tags of `real_operation` handled by the pure-interval cases of
`update_operation_boundaries`.  The stateful cases (DIVISION, LOGARITHM,
INTEGER_POWER), which advance iterators before computing bounds, are modelled
separately below. -/
inductive Operation
  | ADDITION
  | SUBTRACTION
  | MULTIPLICATION
  deriving DecidableEq

/-- Transcription of `const_precision_iterator<T>::update_operation_boundaries`
(`real_data.hpp`), ADDITION / SUBTRACTION / MULTIPLICATION cases, as a function
of the operand intervals `L`, `R` and the iterator's `_precision`.  In the
"one is around zero" MULTIPLICATION branch the source's
`lower_bound.up_to(_precision, false) = current_boundary;` assigns into the
temporary returned by `up_to`, so the interval is unchanged there; the later
lower-bound guards compare against `lower_bound.up_to(_precision, false)`,
a truncation of the current lower bound. -/
def updateOperationBoundaries (B p : ℕ) (op : Operation) (L R : QInterval) :
    QInterval :=
  match op with
  | .ADDITION =>
      ⟨upTo B L.lower p false + upTo B R.lower p false,
       upTo B L.upper p true + upTo B R.upper p true⟩
  | .SUBTRACTION =>
      ⟨upTo B L.lower p false - upTo B R.upper p true,
       upTo B L.upper p true - upTo B R.lower p false⟩
  | .MULTIPLICATION =>
      if L.positiveP ∧ R.positiveP then
        ⟨upTo B L.lower p false * upTo B R.lower p false,
         upTo B L.upper p true * upTo B R.upper p true⟩
      else if L.negativeP ∧ R.negativeP then
        ⟨upTo B L.upper p true * upTo B R.upper p true,
         upTo B L.lower p false * upTo B R.lower p false⟩
      else if L.negativeP ∧ R.positiveP then
        ⟨upTo B L.lower p false * upTo B R.upper p true,
         upTo B L.upper p true * upTo B R.lower p false⟩
      else if L.positiveP ∧ R.negativeP then
        ⟨upTo B L.upper p true * upTo B R.lower p false,
         upTo B L.lower p false * upTo B R.upper p true⟩
      else
        -- One is around zero: all possible combinations are tested.
        let ll := upTo B L.lower p false * upTo B R.lower p false
        -- lower := ll; upper := ll
        let uu := upTo B L.upper p true * upTo B R.upper p true
        -- `if (uu < lower)` writes into the temporary returned by `up_to`:
        -- the lower bound is unchanged.
        let upper1 := if ll < uu then uu else ll
        let lu := upTo B L.lower p false * upTo B R.upper p true
        let lower2 := if lu < upTo B ll p false then lu else ll
        let upper2 := if upper1 < lu then lu else upper1
        let ul := upTo B L.upper p true * upTo B R.lower p false
        let lower3 := if ul < upTo B lower2 p false then ul else lower2
        let upper3 := if upper2 < ul then ul else upper2
        ⟨lower3, upper3⟩

/-- Precision state of an operation node and its two operand iterators. -/
structure OpNodeSt where
  prec : ℕ
  lhsPrec : ℕ
  rhsPrec : ℕ
  deriving DecidableEq

/-- Transcription of `const_precision_iterator<T>::operation_iterate`
(`real_data.hpp`): advance a child only when its precision equals this
iterator's precision, increment `_precision`, then update the boundaries from
the children's current intervals.  A child iterator at precision `q` holds the
interval `lhsSeq q` (resp. `rhsSeq q`). -/
def operationIterate (B : ℕ) (op : Operation) (lhsSeq rhsSeq : ℕ → QInterval)
    (s : OpNodeSt) : OpNodeSt × QInterval :=
  let lp := if s.lhsPrec = s.prec then s.lhsPrec + 1 else s.lhsPrec
  let rp := if s.rhsPrec = s.prec then s.rhsPrec + 1 else s.rhsPrec
  let p := s.prec + 1
  (⟨p, lp, rp⟩, updateOperationBoundaries B p op (lhsSeq lp) (rhsSeq rp))

/-- Transcription of `const_precision_iterator<T>::operation_iterate_n_times`
(`real_data.hpp`): advance a child by `n` when its precision is below
`_precision + n`, add `n` to `_precision`, then update the boundaries. -/
def operationIterateNTimes (B : ℕ) (op : Operation)
    (lhsSeq rhsSeq : ℕ → QInterval) (s : OpNodeSt) (n : ℕ) :
    OpNodeSt × QInterval :=
  let lp := if s.lhsPrec < s.prec + n then s.lhsPrec + n else s.lhsPrec
  let rp := if s.rhsPrec < s.prec + n then s.rhsPrec + n else s.rhsPrec
  let p := s.prec + n
  (⟨p, lp, rp⟩, updateOperationBoundaries B p op (lhsSeq lp) (rhsSeq rp))

/-- Error kinds thrown by the precision iterator.  `real_exception.hpp` is not
under `src/`; the constructors follow the spec's error model. -/
inductive RealExc
  | divergentDivisionResult
  | nonIntegralExponent
  | negativeIntegerExponent
  | logDomain
  deriving DecidableEq

/-- State seen by the DIVISION zero guard: the division iterator's
`_precision` and the right operand's current interval. -/
structure DivSt where
  prec : ℕ
  rhs : QInterval

/-- Condition of the DIVISION zero-guard while loop
(`real_data.hpp` lines 186-189):
`(!positive() && !negative()) || lower_bound == 0 || upper_bound == 0`. -/
def divNeedsIteration (I : QInterval) : Prop :=
  (¬I.positiveP ∧ ¬I.negativeP) ∨ I.lower = 0 ∨ I.upper = 0

instance (I : QInterval) : Decidable (divNeedsIteration I) := by
  unfold divNeedsIteration; infer_instance

/-- Transcription of the DIVISION zero-guard while loop: while the right
operand's interval straddles or touches zero and `_precision ≤
maximum_precision()`, advance the division iterator by one (`++(*this)`,
modelled by the abstract `advance`, which refines the right operand and
increments the precision).  The fuel argument bounds the recursion; with
`fuel = maxP + 2 - prec` and an `advance` that increments `prec`, the loop is
never cut short, because `prec` passes `maxP` within the fuel. -/
def divZeroLoop (advance : DivSt → DivSt) (maxP : ℕ) : ℕ → DivSt → DivSt
  | 0, s => s
  | fuel + 1, s =>
      if divNeedsIteration s.rhs ∧ s.prec ≤ maxP then
        divZeroLoop advance maxP fuel (advance s)
      else s

/-- Transcription of the DIVISION zero guard (`real_data.hpp` lines 185-197):
run the while loop, then throw `divergent_division_result` when the right
operand's interval still contains zero (`!positive() && !negative()`). -/
def divisionZeroGuard (advance : DivSt → DivSt) (maxP : ℕ) (s : DivSt) :
    Except RealExc DivSt :=
  let s1 := divZeroLoop advance maxP (maxP + 2 - s.prec) s
  if ¬s1.rhs.positiveP ∧ ¬s1.rhs.negativeP then
    Except.error RealExc.divergentDivisionResult
  else Except.ok s1

/-- State seen by the LOGARITHM domain guard: the iterator's `_precision` and
the operand's current interval. -/
structure LogSt where
  prec : ℕ
  lhs : QInterval

/-- Transcription of the LOGARITHM refinement loop (`real_data.hpp` lines
361-370): while `lower_bound.up_to(_precision, true)` is zero or negative,
throw `log_domain` if `_precision ≥ maximum_precision()` and otherwise advance
the operand by one and increment `_precision` (modelled by the abstract
`advance`).  The value-level test `x == 0 ∨ sign(x) = false` is `x ≤ 0`.
The fuel argument bounds the recursion; with `fuel = maxPL + 1 - prec` and an
`advance` that increments `prec`, fuel runs out only at `prec > maxPL`, where
the source also stops (by throwing). -/
def logLoop (B maxPL : ℕ) (advance : LogSt → LogSt) :
    ℕ → LogSt → Except RealExc LogSt
  | 0, s =>
      if upTo B s.lhs.lower s.prec true ≤ 0 then
        Except.error RealExc.logDomain
      else Except.ok s
  | fuel + 1, s =>
      if upTo B s.lhs.lower s.prec true ≤ 0 then
        if maxPL ≤ s.prec then Except.error RealExc.logDomain
        else logLoop B maxPL advance fuel (advance s)
      else Except.ok s

/-- Transcription of the LOGARITHM domain guard (`real_data.hpp` lines
355-370): fail `log_domain` at once when the truncated upper bound is zero or
negative, otherwise run the refinement loop on the lower bound. -/
def logDomainGuard (B maxPL : ℕ) (advance : LogSt → LogSt) (s : LogSt) :
    Except RealExc LogSt :=
  if upTo B s.lhs.upper s.prec true ≤ 0 then Except.error RealExc.logDomain
  else logLoop B maxPL advance (maxPL + 1 - s.prec) s

/-- Modelled from the spec: an `exact_number` as stored — sign (`true` =
non-negative), base-`B` digit vector, exponent; value =
`sign · Σ digits[i] · B^(exponent-1-i)`.  `exact_number.hpp` is not under
`src/`; the INTEGER_POWER check reads `digits.size()` and `exponent`
directly, so this claim needs the stored representation. -/
structure ExactD where
  positive : Bool
  digits : List ℕ
  exponent : ℤ
  deriving DecidableEq

/-- The rational value of a stored Digit Number (spec value formula). -/
def ExactD.valueD (B : ℕ) (x : ExactD) : ℚ :=
  (if x.positive then 1 else -1) *
    ∑ i in Finset.range x.digits.length,
      (x.digits.getD i 0 : ℚ) * zpowB B (x.exponent - 1 - i)

/-- An interval whose endpoints keep their stored digit representation. -/
structure IntervalD where
  lower : ExactD
  upper : ExactD
  deriving DecidableEq

/-- Transcription of the INTEGER_POWER integrality check (`real_data.hpp`
lines 281-284): throw `non_integral_exponent` when the interval's bounds
differ or the lower bound's digit count exceeds its exponent. -/
def ipowExponentCheck (J : IntervalD) : Except RealExc Unit :=
  if J.lower ≠ J.upper ∨ J.lower.exponent < (J.lower.digits.length : ℤ) then
    Except.error RealExc.nonIntegralExponent
  else Except.ok ()

/-- Transcription of the INTEGER_POWER entry (`real_data.hpp` lines 279-284):
the right operand is first advanced to its maximum precision
(`iterate_n_times(maximum_precision())`) and the resulting interval is
checked; `rhsItr q` is the right operand's interval after advancing to
precision `q`. -/
def ipowGuard (rhsItr : ℕ → IntervalD) (maxP : ℕ) : Except RealExc Unit :=
  ipowExponentCheck (rhsItr maxP)

/-- Transcription of `real::get_nth_digit` (`real.hpp` lines 232-246),
list branch: `0` when `n` exceeds the stored size, otherwise the digit
reached after `n - 1` advances from `cbegin` (1-indexed access). -/
def getNthDigit (ds : List ℕ) (n : ℕ) : ℕ :=
  if ds.length < n then 0 else ds.getD (n - 1) 0

/-- State of a `real::iterator` over a leaf (`_operation == NONE`):
digit lists of the two bounds, the count `n` of digits consumed, and the
integer-part lengths. -/
structure LeafItState where
  lower : List ℕ
  upper : List ℕ
  n : ℕ
  lowerIp : ℕ
  upperIp : ℕ
  deriving DecidableEq

/-- The carry loop of the leaf branch of `real::iterator::operator++`
(`real.hpp` lines 143-152): walk the lower bound from the back with carry 1;
a digit summing to 10 becomes 0 and keeps the carry, otherwise the digit
absorbs the carry.  Returns the rebuilt digits and the carry leaving the
front. -/
def incFromBack : List ℕ → List ℕ × ℕ
  | [] => ([], 1)
  | d :: rest =>
      let r := incFromBack rest
      if d + r.2 = 10 then (0 :: r.1, r.2) else ((d + r.2) :: r.1, 0)

/-- Transcription of the leaf branch of `real::iterator::operator++`
(`real.hpp` lines 134-160): append the next stored digit to the lower bound
and rebuild the upper bound by adding one at the last position with carry
propagation.  The initial pop_back/push_back on the upper bound in the source
is dead code (the upper bound is cleared and rebuilt right after). -/
def leafStep (ds : List ℕ) (s : LeafItState) : LeafItState :=
  let n1 := s.n + 1
  let lower1 := s.lower ++ [getNthDigit ds n1]
  let r := incFromBack lower1
  { lower := lower1
    upper := if 0 < r.2 then r.2 :: r.1 else r.1
    n := n1
    lowerIp := s.lowerIp
    upperIp := if 0 < r.2 then s.lowerIp + 1 else s.upperIp }

/-- The leaf iterator constructed by `real::begin()` after `k` increments in
total: the constructor seeds both bounds with `[0]` and integer parts 1
(`real.hpp` lines 119-124), then applies `++` (`leafIter ds 1` is the state
`begin()` returns). -/
def leafIter (ds : List ℕ) (k : ℕ) : LeafItState :=
  (leafStep ds)^[k] ⟨[0], [0], 0, 1, 1⟩

/-- The digit-parallel addition loop of `real::iterator::add_bounds`
(`real.hpp` lines 74-92): add aligned digit lists from the back with carry;
a digit above 9 loses 10 and sets the carry.  The lists have equal length at
every call site (after the padding loops). -/
def addFromBack : List ℕ → List ℕ → List ℕ × ℕ
  | a :: as, b :: bs =>
      let r := addFromBack as bs
      let d := a + b + r.2
      if 9 < d then ((d - 10) :: r.1, 1) else (d :: r.1, 0)
  | _, _ => ([], 0)

/-- Transcription of `real::iterator::add_bounds` (`real.hpp` lines 50-100),
including the slip in the second alignment loop: the source pushes the
padding zeros onto `lhs` (not `rhs`) while incrementing `rhs_integers`, so
operands whose integer parts have different lengths are added misaligned.
A final carry prepends a `1` and raises the returned integer-part length. -/
def addBounds (lhs : List ℕ) (lhsIntegers : ℕ) (rhs : List ℕ)
    (rhsIntegers : ℕ) : List ℕ × ℕ :=
  let lhs1 := List.replicate (rhsIntegers - lhsIntegers) 0 ++ lhs
  let lhsI1 := max lhsIntegers rhsIntegers
  let lhs2 := List.replicate (lhsI1 - rhsIntegers) 0 ++ lhs1
  let rhsI2 := max rhsIntegers lhsI1
  let lhs3 := lhs2 ++ List.replicate (rhs.length - lhs2.length) 0
  let rhs3 := rhs ++ List.replicate (lhs2.length - rhs.length) 0
  let r := addFromBack lhs3 rhs3
  if r.2 = 1 then (1 :: r.1, rhsI2 + 1) else (r.1, rhsI2)

/-- Expression trees of the prototype `real` (`OP::ADD` nodes over digit-list
leaves). -/
inductive RExpr
  | leafE (ds : List ℕ)
  | addE (lhs rhs : RExpr)

/-- A `real::iterator` over an expression tree: leaves carry their stored
digits and leaf state, ADD nodes carry child iterators and their own bound
lists and integer parts. -/
inductive RIt
  | leafIt (ds : List ℕ) (st : LeafItState)
  | addIt (lhs rhs : RIt) (lower upper : List ℕ) (lowerIp upperIp : ℕ)

/-- The iterator's current lower-bound digit list. -/
def RIt.lowerBound : RIt → List ℕ
  | .leafIt _ st => st.lower
  | .addIt _ _ lo _ _ _ => lo

/-- The iterator's current upper-bound digit list. -/
def RIt.upperBound : RIt → List ℕ
  | .leafIt _ st => st.upper
  | .addIt _ _ _ up _ _ => up

/-- The iterator's `lower_integer_part`. -/
def RIt.lowerIntegers : RIt → ℕ
  | .leafIt _ st => st.lowerIp
  | .addIt _ _ _ _ li _ => li

/-- The iterator's `upper_integer_part`. -/
def RIt.upperIntegers : RIt → ℕ
  | .leafIt _ st => st.upperIp
  | .addIt _ _ _ _ _ ui => ui

/-- Transcription of `real::iterator::operator++` (`real.hpp` lines
132-171): leaves take a leaf step; ADD nodes clear their bounds, advance both
children, and recompute both bounds with `add_bounds`. -/
def stepIt : RIt → RIt
  | .leafIt ds st => .leafIt ds (leafStep ds st)
  | .addIt l r _ _ _ _ =>
      let l1 := stepIt l
      let r1 := stepIt r
      let lo := addBounds l1.lowerBound l1.lowerIntegers
        r1.lowerBound r1.lowerIntegers
      let up := addBounds l1.upperBound l1.upperIntegers
        r1.upperBound r1.upperIntegers
      .addIt l1 r1 lo.1 up.1 lo.2 up.2

/-- Transcription of `real::begin()` and the iterator constructor
(`real.hpp` lines 115-127, 262): children are built with `begin()`
recursively, then the fresh iterator is incremented once. -/
def beginIt : RExpr → RIt
  | .leafE ds => .leafIt ds (leafStep ds ⟨[0], [0], 0, 1, 1⟩)
  | .addE l r => stepIt (.addIt (beginIt l) (beginIt r) [] [] 0 0)

/-- The natural number spelled by a digit list (most significant first). -/
def digitsVal : List ℕ → ℕ
  | [] => 0
  | d :: rest => d * 10 ^ rest.length + digitsVal rest

/-- Transcription of `real_explicit::operator[]` (`real_explicit.hpp` lines
171-177): the stored digit when the index is in range, `0` otherwise. -/
def realExplicitDigit (digits : List ℤ) (n : ℕ) : ℤ :=
  if h : n < digits.length then digits.get ⟨n, h⟩ else 0

/-- The leaf `0.9` (digit list `[9]`) of the prototype `real`. -/
def leafNine : RExpr := .leafE [9]

/-- Balanced chains of additions of `0.9`; `sumTree4` (sixteen leaves) is the
first whose interval gains a second integer digit. -/
def sumTree1 : RExpr := .addE leafNine leafNine

def sumTree2 : RExpr := .addE sumTree1 sumTree1

def sumTree3 : RExpr := .addE sumTree2 sumTree2

def sumTree4 : RExpr := .addE sumTree3 sumTree3

/-! ## Helper lemmas, claim theorems and witnesses -/

/-- Characterization of `qexpSmall`: it returns the least `k` with
`1 ≤ q * B ^ k`, provided the fuel covers `k`. -/
theorem qexpSmall_eval (B : ℕ) (k : ℕ) (q : ℚ) :
    ∀ fuel, k ≤ fuel → 1 ≤ q * (B : ℚ) ^ k → (∀ j, j < k → q * (B : ℚ) ^ j < 1) →
    qexpSmall B fuel q = k := by
  induction k generalizing q with
  | zero =>
      intro fuel _ h1 _
      cases fuel with
      | zero => rfl
      | succ f =>
          simp only [pow_zero, mul_one] at h1
          simp [qexpSmall, h1]
  | succ k ih =>
      intro fuel hfuel h1 h2
      cases fuel with
      | zero => omega
      | succ f =>
          have hq1 : q * (B : ℚ) ^ 0 < 1 := h2 0 (Nat.succ_pos k)
          simp only [pow_zero, mul_one] at hq1
          have : ¬(1 ≤ q) := not_le.mpr hq1
          simp only [qexpSmall, this, if_false]
          rw [ih (q * B) f (Nat.succ_le_succ_iff.mp hfuel)]
          · calc (1 : ℚ) ≤ q * (B : ℚ) ^ (k + 1) := h1
            _ = q * (B : ℚ) * (B : ℚ) ^ k := by ring
          · intro j hj
            have := h2 (j + 1) (Nat.succ_lt_succ hj)
            calc q * (B : ℚ) * (B : ℚ) ^ j = q * (B : ℚ) ^ (j + 1) := by ring
            _ < 1 := this

/-- Characterization of `qexpBig`: it returns the least `k ≥ 1` with
`q < B ^ k`, provided the fuel covers `k - 1`. -/
theorem qexpBig_eval (B : ℕ) (k : ℕ) (q : ℚ) (hB : 0 < (B : ℚ)) :
    ∀ fuel, k - 1 ≤ fuel → 1 ≤ k → q < (B : ℚ) ^ k → (∀ j, j < k → (B : ℚ) ^ j ≤ q) →
    qexpBig B fuel q = k := by
  induction k generalizing q with
  | zero => omega
  | succ k ih =>
      intro fuel hfuel _ hup hlo
      cases Nat.eq_or_lt_of_le (Nat.one_le_iff_ne_zero.mpr (Nat.succ_ne_zero k)) with
      | inl h1 =>
          -- k + 1 = 1
          have hk0 : k = 0 := by omega
          subst hk0
          have hqB : q < (B : ℚ) := by simpa using hup
          cases fuel with
          | zero => rfl
          | succ f => simp [qexpBig, hqB]
      | inr h2 =>
          -- k + 1 ≥ 2, so B ≤ q and we recurse
          have hk1 : 1 ≤ k := by omega
          have hBq : (B : ℚ) ≤ q := by simpa using hlo 1 (by omega)
          have hq1 : ¬(q < (B : ℚ)) := not_lt.mpr hBq
          cases fuel with
          | zero => omega
          | succ f =>
              simp only [qexpBig, hq1, if_false]
              rw [ih (q / B) f (by omega) hk1]
              · rw [div_lt_iff₀ hB]
                calc q < (B : ℚ) ^ (k + 1) := hup
                _ = (B : ℚ) ^ k * B := by ring
              · intro j hj
                have h := hlo (j + 1) (Nat.succ_lt_succ hj)
                rw [le_div_iff₀ hB]
                calc (B : ℚ) ^ j * B = (B : ℚ) ^ (j + 1) := by ring
                _ ≤ q := h

/-- Evaluation rule for `qexp` on arguments of magnitude below one. -/
theorem qexp_eval_of_lt_one (B : ℕ) (x a : ℚ) (k : ℕ)
    (ha : |x| = a) (ha1 : a < 1) (hk : k ≤ a.den)
    (h1 : 1 ≤ a * (B : ℚ) ^ k) (h2 : ∀ j, j < k → a * (B : ℚ) ^ j < 1) :
    qexp B x = 1 - k := by
  unfold qexp
  rw [ha, if_pos ha1, qexpSmall_eval B k a a.den hk h1 h2]

/-- Evaluation rule for `qexp` on arguments of magnitude at least one. -/
theorem qexp_eval_of_one_le (B : ℕ) (x a : ℚ) (k : ℕ) (hB : 0 < (B : ℚ))
    (ha : |x| = a) (ha1 : ¬(a < 1)) (hfuel : k - 1 ≤ a.num.natAbs) (h1 : 1 ≤ k)
    (hup : a < (B : ℚ) ^ k) (hlo : ∀ j, j < k → (B : ℚ) ^ j ≤ a) :
    qexp B x = k := by
  unfold qexp
  rw [ha, if_neg ha1, qexpBig_eval B k a hB a.num.natAbs hfuel h1 hup hlo]

/-- Evaluation rule for `upTo _ _ _ false` at a nonzero argument. -/
theorem upTo_eval_down (B : ℕ) (x s : ℚ) (p : ℕ) (e k : ℤ) (y : ℚ)
    (hx : x ≠ 0) (he : qexp B x = e) (hs : zpowB B (e - (p : ℤ)) = s)
    (hk : ⌊x / s⌋ = k) (hy : (k : ℚ) * s = y) :
    upTo B x p false = y := by
  unfold upTo
  rw [if_neg hx]
  simp only [he, hs, hk, hy, Bool.false_eq_true, if_false]

/-- Evaluation rule for `upTo _ _ _ true` at a nonzero argument. -/
theorem upTo_eval_up (B : ℕ) (x s : ℚ) (p : ℕ) (e k : ℤ) (y : ℚ)
    (hx : x ≠ 0) (he : qexp B x = e) (hs : zpowB B (e - (p : ℤ)) = s)
    (hk : ⌈x / s⌉ = k) (hy : (k : ℚ) * s = y) :
    upTo B x p true = y := by
  unfold upTo
  rw [if_neg hx]
  simp only [he, hs, hk, hy, if_true]

/-- One-shot evaluation of `upTo _ _ _ false` for `|x| < 1`. -/
theorem upTo_dn_small (B : ℕ) (x a s y : ℚ) (p k : ℕ) (m : ℤ)
    (hx : x ≠ 0) (ha : |x| = a) (ha1 : a < 1) (hk : k ≤ a.den)
    (h1 : 1 ≤ a * (B : ℚ) ^ k) (h2 : ∀ j, j < k → a * (B : ℚ) ^ j < 1)
    (hs : zpowB B (1 - (k : ℤ) - (p : ℤ)) = s) (hm : ⌊x / s⌋ = m)
    (hy : (m : ℚ) * s = y) :
    upTo B x p false = y :=
  upTo_eval_down B x s p (1 - k) m y hx
    (qexp_eval_of_lt_one B x a k ha ha1 hk h1 h2) hs hm hy

/-- One-shot evaluation of `upTo _ _ _ true` for `|x| < 1`. -/
theorem upTo_up_small (B : ℕ) (x a s y : ℚ) (p k : ℕ) (m : ℤ)
    (hx : x ≠ 0) (ha : |x| = a) (ha1 : a < 1) (hk : k ≤ a.den)
    (h1 : 1 ≤ a * (B : ℚ) ^ k) (h2 : ∀ j, j < k → a * (B : ℚ) ^ j < 1)
    (hs : zpowB B (1 - (k : ℤ) - (p : ℤ)) = s) (hm : ⌈x / s⌉ = m)
    (hy : (m : ℚ) * s = y) :
    upTo B x p true = y :=
  upTo_eval_up B x s p (1 - k) m y hx
    (qexp_eval_of_lt_one B x a k ha ha1 hk h1 h2) hs hm hy

/-- One-shot evaluation of `upTo _ _ _ false` for `1 ≤ |x|`. -/
theorem upTo_dn_big (B : ℕ) (x a s y : ℚ) (p k : ℕ) (m : ℤ) (hB : 0 < (B : ℚ))
    (hx : x ≠ 0) (ha : |x| = a) (ha1 : ¬(a < 1)) (hfuel : k - 1 ≤ a.num.natAbs)
    (h1 : 1 ≤ k) (hup : a < (B : ℚ) ^ k) (hlo : ∀ j, j < k → (B : ℚ) ^ j ≤ a)
    (hs : zpowB B ((k : ℤ) - (p : ℤ)) = s) (hm : ⌊x / s⌋ = m)
    (hy : (m : ℚ) * s = y) :
    upTo B x p false = y :=
  upTo_eval_down B x s p k m y hx
    (qexp_eval_of_one_le B x a k hB ha ha1 hfuel h1 hup hlo) hs hm hy

/-- One-shot evaluation of `upTo _ _ _ true` for `1 ≤ |x|`. -/
theorem upTo_up_big (B : ℕ) (x a s y : ℚ) (p k : ℕ) (m : ℤ) (hB : 0 < (B : ℚ))
    (hx : x ≠ 0) (ha : |x| = a) (ha1 : ¬(a < 1)) (hfuel : k - 1 ≤ a.num.natAbs)
    (h1 : 1 ≤ k) (hup : a < (B : ℚ) ^ k) (hlo : ∀ j, j < k → (B : ℚ) ^ j ≤ a)
    (hs : zpowB B ((k : ℤ) - (p : ℤ)) = s) (hm : ⌈x / s⌉ = m)
    (hy : (m : ℚ) * s = y) :
    upTo B x p true = y :=
  upTo_eval_up B x s p k m y hx
    (qexp_eval_of_one_le B x a k hB ha ha1 hfuel h1 hup hlo) hs hm hy

/-- Truncation of `-3/10` at precision 1 rounding down. -/
theorem evDn_3_10_p1 : upTo 10 (-(3/10) : ℚ) 1 false = -(3/10) :=
  upTo_dn_small 10 (-(3/10)) (3/10) (1/10) (-(3/10)) 1 1 (-3)
    (by norm_num)
    (by rw [abs_of_neg (by norm_num : (-(3/10) : ℚ) < 0)]; norm_num)
    (by norm_num) (by norm_num) (by norm_num)
    (by intro j hj; interval_cases j; norm_num)
    (by norm_num [zpowB]) (by norm_num [Int.floor_eq_iff]) (by norm_num)

theorem evDn_7_10_p1 : upTo 10 (7/10 : ℚ) 1 false = 7/10 :=
  upTo_dn_small 10 (7/10) (7/10) (1/10) (7/10) 1 1 7
    (by norm_num)
    (by rw [abs_of_pos (by norm_num : (0:ℚ) < 7/10)])
    (by norm_num) (by norm_num) (by norm_num)
    (by intro j hj; interval_cases j; norm_num)
    (by norm_num [zpowB]) (by norm_num [Int.floor_eq_iff]) (by norm_num)

theorem evUp_1_20_p1 : upTo 10 (1/20 : ℚ) 1 true = 1/20 :=
  upTo_up_small 10 (1/20) (1/20) (1/100) (1/20) 1 2 5
    (by norm_num)
    (by rw [abs_of_pos (by norm_num : (0:ℚ) < 1/20)])
    (by norm_num) (by norm_num) (by norm_num)
    (by intro j hj; interval_cases j <;> norm_num)
    (by norm_num [zpowB]) (by norm_num [Int.ceil_eq_iff]) (by norm_num)

theorem evUp_4_5_p1 : upTo 10 (4/5 : ℚ) 1 true = 4/5 :=
  upTo_up_small 10 (4/5) (4/5) (1/10) (4/5) 1 1 8
    (by norm_num)
    (by rw [abs_of_pos (by norm_num : (0:ℚ) < 4/5)])
    (by norm_num) (by norm_num) (by norm_num)
    (by intro j hj; interval_cases j; norm_num)
    (by norm_num [zpowB]) (by norm_num [Int.ceil_eq_iff]) (by norm_num)

theorem evDn_21_100_p1 : upTo 10 (-(21/100) : ℚ) 1 false = -(3/10) :=
  upTo_dn_small 10 (-(21/100)) (21/100) (1/10) (-(3/10)) 1 1 (-3)
    (by norm_num)
    (by rw [abs_of_neg (by norm_num : (-(21/100) : ℚ) < 0)]; norm_num)
    (by norm_num) (by norm_num) (by norm_num)
    (by intro j hj; interval_cases j; norm_num)
    (by norm_num [zpowB]) (by norm_num [Int.floor_eq_iff]) (by norm_num)

theorem evDn_29_100_p2 : upTo 10 (-(29/100) : ℚ) 2 false = -(29/100) :=
  upTo_dn_small 10 (-(29/100)) (29/100) (1/100) (-(29/100)) 2 1 (-29)
    (by norm_num)
    (by rw [abs_of_neg (by norm_num : (-(29/100) : ℚ) < 0)]; norm_num)
    (by norm_num) (by norm_num) (by norm_num)
    (by intro j hj; interval_cases j; norm_num)
    (by norm_num [zpowB]) (by norm_num [Int.floor_eq_iff]) (by norm_num)

theorem evDn_7_10_p2 : upTo 10 (7/10 : ℚ) 2 false = 7/10 :=
  upTo_dn_small 10 (7/10) (7/10) (1/100) (7/10) 2 1 70
    (by norm_num)
    (by rw [abs_of_pos (by norm_num : (0:ℚ) < 7/10)])
    (by norm_num) (by norm_num) (by norm_num)
    (by intro j hj; interval_cases j; norm_num)
    (by norm_num [zpowB]) (by norm_num [Int.floor_eq_iff]) (by norm_num)

theorem evUp_1_25_p2 : upTo 10 (1/25 : ℚ) 2 true = 1/25 :=
  upTo_up_small 10 (1/25) (1/25) (1/1000) (1/25) 2 2 40
    (by norm_num)
    (by rw [abs_of_pos (by norm_num : (0:ℚ) < 1/25)])
    (by norm_num) (by norm_num) (by norm_num)
    (by intro j hj; interval_cases j <;> norm_num)
    (by norm_num [zpowB]) (by norm_num [Int.ceil_eq_iff]) (by norm_num)

theorem evUp_4_5_p2 : upTo 10 (4/5 : ℚ) 2 true = 4/5 :=
  upTo_up_small 10 (4/5) (4/5) (1/100) (4/5) 2 1 80
    (by norm_num)
    (by rw [abs_of_pos (by norm_num : (0:ℚ) < 4/5)])
    (by norm_num) (by norm_num) (by norm_num)
    (by intro j hj; interval_cases j; norm_num)
    (by norm_num [zpowB]) (by norm_num [Int.ceil_eq_iff]) (by norm_num)

theorem evDn_203_1000_p2 : upTo 10 (-(203/1000) : ℚ) 2 false = -(21/100) :=
  upTo_dn_small 10 (-(203/1000)) (203/1000) (1/100) (-(21/100)) 2 1 (-21)
    (by norm_num)
    (by rw [abs_of_neg (by norm_num : (-(203/1000) : ℚ) < 0)]; norm_num)
    (by norm_num) (by norm_num) (by norm_num)
    (by intro j hj; interval_cases j; norm_num)
    (by norm_num [zpowB]) (by norm_num [Int.floor_eq_iff]) (by norm_num)

theorem evDn_29_125_p2 : upTo 10 (-(29/125) : ℚ) 2 false = -(6/25) :=
  upTo_dn_small 10 (-(29/125)) (29/125) (1/100) (-(6/25)) 2 1 (-24)
    (by norm_num)
    (by rw [abs_of_neg (by norm_num : (-(29/125) : ℚ) < 0)]; norm_num)
    (by norm_num) (by norm_num) (by norm_num)
    (by intro j hj; interval_cases j; norm_num)
    (by norm_num [zpowB]) (by norm_num [Int.floor_eq_iff]) (by norm_num)

theorem evUp_3_2_p1 : upTo 10 (-(3/2) : ℚ) 1 true = -1 :=
  upTo_up_big 10 (-(3/2)) (3/2) 1 (-1) 1 1 (-1)
    (by norm_num) (by norm_num)
    (by rw [abs_of_neg (by norm_num : (-(3/2) : ℚ) < 0)]; norm_num)
    (by norm_num) (by norm_num) (by norm_num) (by norm_num)
    (by intro j hj; interval_cases j; norm_num)
    (by norm_num [zpowB]) (by norm_num [Int.ceil_eq_iff]) (by norm_num)

theorem evDn_3_2_p1 : upTo 10 (-(3/2) : ℚ) 1 false = -2 :=
  upTo_dn_big 10 (-(3/2)) (3/2) 1 (-2) 1 1 (-2)
    (by norm_num) (by norm_num)
    (by rw [abs_of_neg (by norm_num : (-(3/2) : ℚ) < 0)]; norm_num)
    (by norm_num) (by norm_num) (by norm_num) (by norm_num)
    (by intro j hj; interval_cases j; norm_num)
    (by norm_num [zpowB]) (by norm_num [Int.floor_eq_iff]) (by norm_num)

/-- The DIVISION zero-guard loop only stops when its condition is false,
provided each `advance` raises the precision by one. -/
theorem divZeroLoop_post (advance : DivSt → DivSt) (maxP : ℕ)
    (hadv : ∀ t, (advance t).prec = t.prec + 1) :
    ∀ fuel s, maxP + 2 ≤ s.prec + fuel →
      ¬(divNeedsIteration (divZeroLoop advance maxP fuel s).rhs ∧
        (divZeroLoop advance maxP fuel s).prec ≤ maxP) := by
  intro fuel
  induction fuel with
  | zero =>
      intro s h hc
      simp only [divZeroLoop] at hc
      omega
  | succ f ih =>
      intro s h
      by_cases hc : divNeedsIteration s.rhs ∧ s.prec ≤ maxP
      · simp only [divZeroLoop, if_pos hc]
        exact ih (advance s) (by rw [hadv]; omega)
      · simp only [divZeroLoop, if_neg hc]
        exact hc

/-- C4: the DIVISION case advances the iterator while the right operand's
interval straddles or touches zero and the precision is at most
`maximum_precision()`, and fails with `divergent_division_result` exactly when
the right operand's interval still contains zero after that loop. -/
theorem division_zero_guard_spec (advance : DivSt → DivSt) (maxP : ℕ)
    (s : DivSt) (hadv : ∀ t, (advance t).prec = t.prec + 1) :
    (¬(divNeedsIteration
          (divZeroLoop advance maxP (maxP + 2 - s.prec) s).rhs ∧
        (divZeroLoop advance maxP (maxP + 2 - s.prec) s).prec ≤ maxP)) ∧
    (divisionZeroGuard advance maxP s =
        Except.error RealExc.divergentDivisionResult ↔
      (divZeroLoop advance maxP (maxP + 2 - s.prec) s).rhs.containsZeroP) := by
  constructor
  · exact divZeroLoop_post advance maxP hadv (maxP + 2 - s.prec) s (by omega)
  · unfold divisionZeroGuard QInterval.containsZeroP
    by_cases h :
        ¬(divZeroLoop advance maxP (maxP + 2 - s.prec) s).rhs.positiveP ∧
        ¬(divZeroLoop advance maxP (maxP + 2 - s.prec) s).rhs.negativeP
    · simp [h]
    · simp [h]

/-- Witness for `division_zero_guard_spec`: right operand `[-1, 1]` at
precision 1, cap 5, an `advance` that refines it to `[1, 2]`. -/
theorem division_zero_guard_spec_witness :
    (¬(divNeedsIteration
          (divZeroLoop (fun t => ⟨t.prec + 1, ⟨1, 2⟩⟩) 5 6 ⟨1, ⟨-1, 1⟩⟩).rhs ∧
        (divZeroLoop (fun t => ⟨t.prec + 1, ⟨1, 2⟩⟩) 5 6 ⟨1, ⟨-1, 1⟩⟩).prec ≤ 5)) ∧
    (divisionZeroGuard (fun t => ⟨t.prec + 1, ⟨1, 2⟩⟩) 5 ⟨1, ⟨-1, 1⟩⟩ =
        Except.error RealExc.divergentDivisionResult ↔
      (divZeroLoop (fun t => ⟨t.prec + 1, ⟨1, 2⟩⟩) 5 6 ⟨1, ⟨-1, 1⟩⟩).rhs.containsZeroP) :=
  division_zero_guard_spec (fun t => ⟨t.prec + 1, ⟨1, 2⟩⟩) 5 ⟨1, ⟨-1, 1⟩⟩
    (fun _ => rfl)

/-- When the LOGARITHM refinement loop succeeds, the truncated lower bound of
the state it returns is positive. -/
theorem logLoop_ok (B maxPL : ℕ) (advance : LogSt → LogSt) :
    ∀ fuel s s1, logLoop B maxPL advance fuel s = Except.ok s1 →
      0 < upTo B s1.lhs.lower s1.prec true := by
  intro fuel
  induction fuel with
  | zero =>
      intro s s1 h
      by_cases hc : upTo B s.lhs.lower s.prec true ≤ 0
      · simp [logLoop, hc] at h
      · simp only [logLoop, if_neg hc, Except.ok.injEq] at h
        subst h
        exact lt_of_not_le hc
  | succ f ih =>
      intro s s1 h
      by_cases hc : upTo B s.lhs.lower s.prec true ≤ 0
      · by_cases hm : maxPL ≤ s.prec
        · simp [logLoop, hc, hm] at h
        · simp only [logLoop, if_pos hc, if_neg hm] at h
          exact ih (advance s) s1 h
      · simp only [logLoop, if_neg hc, Except.ok.injEq] at h
        subst h
        exact lt_of_not_le hc

/-- Every error the LOGARITHM refinement loop raises is `log_domain`. -/
theorem logLoop_err (B maxPL : ℕ) (advance : LogSt → LogSt) :
    ∀ fuel s e, logLoop B maxPL advance fuel s = Except.error e →
      e = RealExc.logDomain := by
  intro fuel
  induction fuel with
  | zero =>
      intro s e h
      by_cases hc : upTo B s.lhs.lower s.prec true ≤ 0
      · simp only [logLoop, if_pos hc, Except.error.injEq] at h
        exact h.symm
      · simp [logLoop, hc] at h
  | succ f ih =>
      intro s e h
      by_cases hc : upTo B s.lhs.lower s.prec true ≤ 0
      · by_cases hm : maxPL ≤ s.prec
        · simp only [logLoop, if_pos hc, if_pos hm, Except.error.injEq] at h
          exact h.symm
        · simp only [logLoop, if_pos hc, if_neg hm] at h
          exact ih (advance s) e h
      · simp [logLoop, hc] at h

/-- C6: the LOGARITHM case fails `log_domain` at once when the truncated
upper bound is `≤ 0`; otherwise it advances the operand step by step and can
only return successfully with a state whose truncated lower bound is positive;
when the truncated lower bound is `≤ 0` with the precision already at the
operand's `maximum_precision()`, it fails; and every failure carries the same
log-domain error. -/
theorem log_domain_guard_spec (B maxPL : ℕ) (advance : LogSt → LogSt)
    (s : LogSt) :
    (upTo B s.lhs.upper s.prec true ≤ 0 →
      logDomainGuard B maxPL advance s = Except.error RealExc.logDomain) ∧
    (∀ s1, logDomainGuard B maxPL advance s = Except.ok s1 →
      0 < upTo B s1.lhs.lower s1.prec true) ∧
    (0 < upTo B s.lhs.upper s.prec true →
      upTo B s.lhs.lower s.prec true ≤ 0 → maxPL ≤ s.prec →
      logDomainGuard B maxPL advance s = Except.error RealExc.logDomain) ∧
    (∀ e, logDomainGuard B maxPL advance s = Except.error e →
      e = RealExc.logDomain) := by
  refine ⟨?_, ?_, ?_, ?_⟩
  · intro h
    unfold logDomainGuard
    rw [if_pos h]
  · intro s1 h
    unfold logDomainGuard at h
    by_cases hu : upTo B s.lhs.upper s.prec true ≤ 0
    · rw [if_pos hu] at h
      exact absurd h (by simp)
    · rw [if_neg hu] at h
      exact logLoop_ok B maxPL advance (maxPL + 1 - s.prec) s s1 h
  · intro hu hl hm
    unfold logDomainGuard
    rw [if_neg (not_le.mpr hu)]
    cases hf : maxPL + 1 - s.prec with
    | zero => simp [logLoop, hl]
    | succ f => simp [logLoop, hl, hm]
  · intro e h
    unfold logDomainGuard at h
    by_cases hu : upTo B s.lhs.upper s.prec true ≤ 0
    · rw [if_pos hu] at h
      exact (Except.error.injEq _ _).mp h |>.symm
    · rw [if_neg hu] at h
      exact logLoop_err B maxPL advance (maxPL + 1 - s.prec) s e h

/-- Truncation of `5` at precision 1 rounding up (used by the LOG witness). -/
theorem evUp_5_p1 : upTo 10 (5 : ℚ) 1 true = 5 :=
  upTo_up_big 10 5 5 1 5 1 1 5
    (by norm_num) (by norm_num)
    (by rw [abs_of_pos (by norm_num : (0:ℚ) < 5)])
    (by norm_num) (by norm_num) (by norm_num) (by norm_num)
    (by intro j hj; interval_cases j; norm_num)
    (by norm_num [zpowB]) (by norm_num [Int.ceil_eq_iff]) (by norm_num)

/-- Truncation of `-1/10` at precision 1 rounding up (LOG witness). -/
theorem evUp_1_10_p1 : upTo 10 (-(1/10) : ℚ) 1 true = -(1/10) :=
  upTo_up_small 10 (-(1/10)) (1/10) (1/10) (-(1/10)) 1 1 (-1)
    (by norm_num)
    (by rw [abs_of_neg (by norm_num : (-(1/10) : ℚ) < 0)]; norm_num)
    (by norm_num) (by norm_num) (by norm_num)
    (by intro j hj; interval_cases j; norm_num)
    (by norm_num [zpowB]) (by norm_num [Int.ceil_eq_iff]) (by norm_num)

/-- Truncation of `2` at precision 2 rounding up (LOG witness). -/
theorem evUp_2_p2 : upTo 10 (2 : ℚ) 2 true = 2 :=
  upTo_up_big 10 2 2 (1/10) 2 2 1 20
    (by norm_num) (by norm_num)
    (by rw [abs_of_pos (by norm_num : (0:ℚ) < 2)])
    (by norm_num) (by norm_num) (by norm_num) (by norm_num)
    (by intro j hj; interval_cases j; norm_num)
    (by norm_num [zpowB]) (by norm_num [Int.ceil_eq_iff]) (by norm_num)

/-- Concrete run of the LOGARITHM guard: the operand interval `[-1/10, 5]` at
precision 1 is refined once to `[2, 3]` and the guard succeeds. -/
theorem log_domain_guard_ok :
    logDomainGuard 10 5 (fun t => ⟨t.prec + 1, ⟨2, 3⟩⟩) ⟨1, ⟨-(1/10), 5⟩⟩ =
      Except.ok ⟨2, ⟨2, 3⟩⟩ := by
  norm_num [logDomainGuard, logLoop, evUp_5_p1, evUp_1_10_p1, evUp_2_p2]

/-- Witness for `log_domain_guard_spec`: the concrete run above ends in a
state whose truncated lower bound is positive. -/
theorem log_domain_guard_spec_witness :
    logDomainGuard 10 5 (fun t => ⟨t.prec + 1, ⟨2, 3⟩⟩) ⟨1, ⟨-(1/10), 5⟩⟩ =
      Except.ok ⟨2, ⟨2, 3⟩⟩ ∧
    0 < upTo 10 (2 : ℚ) 2 true :=
  ⟨log_domain_guard_ok,
   (log_domain_guard_spec 10 5 (fun t => ⟨t.prec + 1, ⟨2, 3⟩⟩)
      ⟨1, ⟨-(1/10), 5⟩⟩).2.1 ⟨2, ⟨2, 3⟩⟩ log_domain_guard_ok⟩

/-- A stored Digit Number with no more digits than its exponent has an
integer value. -/
theorem valueD_int (B : ℕ) (x : ExactD)
    (h : (x.digits.length : ℤ) ≤ x.exponent) :
    ∃ n : ℤ, ExactD.valueD B x = (n : ℚ) := by
  have hsum : ∀ i ∈ Finset.range x.digits.length,
      (x.digits.getD i 0 : ℚ) * zpowB B (x.exponent - 1 - i) =
      (((x.digits.getD i 0 : ℤ) * (B : ℤ) ^ (x.exponent - 1 - i).natAbs : ℤ) : ℚ) := by
    intro i hi
    rw [Finset.mem_range] at hi
    have hi2 : (i : ℤ) < x.digits.length := by exact_mod_cast hi
    have h0 : 0 ≤ x.exponent - 1 - i := by omega
    unfold zpowB
    rw [if_pos h0]
    push_cast
    ring
  refine ⟨(if x.positive then 1 else -1) *
    ∑ i in Finset.range x.digits.length,
      (x.digits.getD i 0 : ℤ) * (B : ℤ) ^ (x.exponent - 1 - i).natAbs, ?_⟩
  unfold ExactD.valueD
  rw [Finset.sum_congr rfl hsum, ← Int.cast_sum]
  cases x.positive <;> push_cast <;> ring

/-- C7: after the right operand is advanced to its maximum precision, the
INTEGER_POWER case fails `non_integral_exponent` exactly when the interval's
bounds are unequal or the digit count exceeds the exponent; when the check
passes, the interval is a single integer value. -/
theorem ipow_integrality_spec (B : ℕ) (rhsItr : ℕ → IntervalD) (maxP : ℕ) :
    (ipowGuard rhsItr maxP = Except.error RealExc.nonIntegralExponent ↔
      ((rhsItr maxP).lower ≠ (rhsItr maxP).upper ∨
        (rhsItr maxP).lower.exponent < ((rhsItr maxP).lower.digits.length : ℤ))) ∧
    (ipowGuard rhsItr maxP = Except.ok () →
      (rhsItr maxP).lower = (rhsItr maxP).upper ∧
      ∃ n : ℤ, ExactD.valueD B (rhsItr maxP).lower = (n : ℚ)) := by
  unfold ipowGuard ipowExponentCheck
  by_cases hc : (rhsItr maxP).lower ≠ (rhsItr maxP).upper ∨
      (rhsItr maxP).lower.exponent < ((rhsItr maxP).lower.digits.length : ℤ)
  · rw [if_pos hc]
    refine ⟨by simp [hc], fun h => absurd h (by simp)⟩
  · rw [if_neg hc]
    push_neg at hc
    obtain ⟨heq, hle⟩ := hc
    constructor
    · constructor
      · intro h
        exact absurd h (by simp)
      · intro h
        rcases h with h | h
        · exact absurd heq h
        · exact absurd h (not_lt.mpr hle)
    · intro _
      exact ⟨heq, valueD_int B (rhsItr maxP).lower hle⟩

/-- Witness for `ipow_integrality_spec`: a right operand pinned at the
integer `7` (digits `[7]`, exponent `1`) passes the check and has an integer
value. -/
theorem ipow_integrality_spec_witness :
    (⟨true, [7], 1⟩ : ExactD) = ⟨true, [7], 1⟩ ∧
    ∃ n : ℤ, ExactD.valueD 10 ⟨true, [7], 1⟩ = (n : ℚ) :=
  (ipow_integrality_spec 10 (fun _ => ⟨⟨true, [7], 1⟩, ⟨true, [7], 1⟩⟩) 3).2 rfl

/-- C5: for every ADDITION node at precision `p`, `update_operation_boundaries`
sets the lower bound to `trunc↓(L.lower, p) + trunc↓(R.lower, p)` and the upper
bound to `trunc↑(L.upper, p) + trunc↑(R.upper, p)`. -/
theorem addition_boundaries (B p : ℕ) (L R : QInterval) :
    updateOperationBoundaries B p .ADDITION L R =
      ⟨upTo B L.lower p false + upTo B R.lower p false,
       upTo B L.upper p true + upTo B R.upper p true⟩ := rfl

/-- C2, counterexample: in the both-negative MULTIPLICATION case the operand
endpoints feeding the result's lower bound are truncated with `round_up=true`,
not `round_up=false` as claimed: at `L = R = [-3/2, -3/2]`, `p = 1`, `B = 10`,
the code's lower bound is `trunc↑(-3/2)·trunc↑(-3/2) = 1`, while the claimed
formula `trunc↓(L.upper)·trunc↓(R.upper)` gives `4`. -/
theorem mul_neg_neg_rounding_cx :
    (updateOperationBoundaries 10 1 .MULTIPLICATION
        ⟨-(3/2), -(3/2)⟩ ⟨-(3/2), -(3/2)⟩).lower = 1 ∧
    upTo 10 (-(3/2) : ℚ) 1 false * upTo 10 (-(3/2) : ℚ) 1 false = 4 ∧
    (1 : ℚ) ≠ 4 := by
  refine ⟨?_, ?_, by norm_num⟩
  · norm_num [updateOperationBoundaries, QInterval.positiveP,
      QInterval.negativeP, evUp_3_2_p1, evDn_3_2_p1]
  · rw [evDn_3_2_p1]; norm_num

/-- C2, amended: the truncation direction follows the operand endpoint, not
the result bound it feeds: `L.upper` and `R.upper` are always truncated with
`round_up=true` and `L.lower`, `R.lower` with `round_up=false`.  In the
both-negative case `lower = trunc↑(L.upper)·trunc↑(R.upper)` and
`upper = trunc↓(L.lower)·trunc↓(R.lower)`. -/
theorem mul_both_negative_boundaries (B p : ℕ) (L R : QInterval)
    (hL : L.upper < 0) (hR : R.upper < 0) (hLwf : L.lower ≤ L.upper) :
    updateOperationBoundaries B p .MULTIPLICATION L R =
      ⟨upTo B L.upper p true * upTo B R.upper p true,
       upTo B L.lower p false * upTo B R.lower p false⟩ := by
  have h1 : ¬L.positiveP := by
    unfold QInterval.positiveP; linarith
  have h2 : L.negativeP := hL
  have h3 : R.negativeP := hR
  simp only [updateOperationBoundaries]
  rw [if_neg (fun h => h1 h.1), if_pos ⟨h2, h3⟩]

/-- Witness for `mul_both_negative_boundaries` at `L = R = [-3/2, -3/2]`,
`B = 10`, `p = 1`. -/
theorem mul_both_negative_boundaries_witness :
    updateOperationBoundaries 10 1 .MULTIPLICATION
        ⟨-(3/2), -(3/2)⟩ ⟨-(3/2), -(3/2)⟩ =
      ⟨upTo 10 (-(3/2) : ℚ) 1 true * upTo 10 (-(3/2) : ℚ) 1 true,
       upTo 10 (-(3/2) : ℚ) 1 false * upTo 10 (-(3/2) : ℚ) 1 false⟩ :=
  mul_both_negative_boundaries 10 1 ⟨-(3/2), -(3/2)⟩ ⟨-(3/2), -(3/2)⟩
    (by norm_num) (by norm_num) (by norm_num)

/-- C3: in the straddle-zero MULTIPLICATION case the computed lower bound is
not the minimum of the four outward-rounded endpoint products.  At
`L = [-3/10, 1/20]`, `R = [7/10, 4/5]`, `p = 1`, `B = 10` the code returns
lower bound `-21/100`, while the minimum of the four endpoint products is
`-6/25 = -24/100`: the guard compares the candidate against a truncation of
the current lower bound (`-3/10`), so the update `-6/25 < -21/100` is
skipped. -/
theorem mul_straddle_lower_not_min :
    updateOperationBoundaries 10 1 .MULTIPLICATION
        ⟨-(3/10), 1/20⟩ ⟨7/10, 4/5⟩ = ⟨-(21/100), 1/25⟩ ∧
    min (min (upTo 10 (-(3/10) : ℚ) 1 false * upTo 10 (7/10 : ℚ) 1 false)
             (upTo 10 (1/20 : ℚ) 1 true * upTo 10 (4/5 : ℚ) 1 true))
        (min (upTo 10 (-(3/10) : ℚ) 1 false * upTo 10 (4/5 : ℚ) 1 true)
             (upTo 10 (1/20 : ℚ) 1 true * upTo 10 (7/10 : ℚ) 1 false))
      = -(6/25) ∧
    (-(21/100) : ℚ) ≠ -(6/25) := by
  refine ⟨?_, ?_, by norm_num⟩
  · norm_num [updateOperationBoundaries, QInterval.positiveP,
      QInterval.negativeP, evDn_3_10_p1, evDn_7_10_p1, evUp_1_20_p1,
      evUp_4_5_p1, evDn_21_100_p1]
  · rw [evDn_3_10_p1, evDn_7_10_p1, evUp_1_20_p1, evUp_4_5_p1]
    norm_num [min_def]

/-- C1: the nesting invariant fails.  For a MULTIPLICATION node over operand
iterators that do emit nested chains — the left operand emits `[-3/10, 1/20]`
at precision 1 and `[-29/100, 1/25]` from precision 2 on, the right operand
constantly emits `[7/10, 4/5]` — the node's enclosure at precision 1 is
`[-21/100, 1/25]`, but one `operation_iterate` step produces
`[-29/125, 4/125]`, whose lower bound `-29/125 = -0.232` lies strictly below
`-21/100 = -0.21`: the new interval is not contained in the previous one. -/
theorem operation_iterate_not_nested :
    updateOperationBoundaries 10 1 .MULTIPLICATION
        ⟨-(3/10), 1/20⟩ ⟨7/10, 4/5⟩ = ⟨-(21/100), 1/25⟩ ∧
    (operationIterate 10 .MULTIPLICATION
        (fun p => if p ≤ 1 then ⟨-(3/10), 1/20⟩ else ⟨-(29/100), 1/25⟩)
        (fun _ => ⟨7/10, 4/5⟩) ⟨1, 1, 1⟩).2 = ⟨-(29/125), 4/125⟩ ∧
    ((-(3/10) : ℚ) ≤ -(29/100) ∧ (1/25 : ℚ) ≤ 1/20) ∧
    (-(29/125) : ℚ) < -(21/100) := by
  refine ⟨?_, ?_, by norm_num, by norm_num⟩
  · norm_num [updateOperationBoundaries, QInterval.positiveP,
      QInterval.negativeP, evDn_3_10_p1, evDn_7_10_p1, evUp_1_20_p1,
      evUp_4_5_p1, evDn_21_100_p1]
  · norm_num [operationIterate, updateOperationBoundaries,
      QInterval.positiveP, QInterval.negativeP, evDn_29_100_p2, evDn_7_10_p2,
      evUp_1_25_p2, evUp_4_5_p2, evDn_203_1000_p2, evDn_29_125_p2]

/-- `incFromBack` preserves the length, yields a carry of at most one, and
adds exactly one to the spelled value (carry included), for valid digits. -/
theorem incFromBack_spec (M : List ℕ) (hM : ∀ d ∈ M, d ≤ 9) :
    (incFromBack M).1.length = M.length ∧
    (incFromBack M).2 ≤ 1 ∧
    (incFromBack M).2 * 10 ^ M.length + digitsVal (incFromBack M).1
      = digitsVal M + 1 := by
  induction M with
  | nil => simp [incFromBack, digitsVal]
  | cons d rest ih =>
      obtain ⟨hlen, hc, hval⟩ := ih (fun x hx => hM x (List.mem_cons_of_mem d hx))
      have hd9 : d ≤ 9 := hM d (List.mem_cons_self d rest)
      by_cases h10 : d + (incFromBack rest).2 = 10
      · have hr2 : (incFromBack rest).2 = 1 := by omega
        simp only [incFromBack, h10, if_pos]
        refine ⟨by simp [hlen], by omega, ?_⟩
        simp only [digitsVal, hlen, List.length_cons]
        rw [hr2] at hval ⊢
        have h9 : d = 9 := by omega
        subst h9
        ring_nf
        ring_nf at hval
        omega
      · simp only [incFromBack, if_neg h10]
        refine ⟨by simp [hlen], by omega, ?_⟩
        simp only [digitsVal, hlen, List.length_cons]
        ring_nf
        ring_nf at hval
        omega

/-- A lower-bound list starting with the seeded `0` absorbs the carry. -/
theorem incFromBack_carry_zero (L : List ℕ) (hL : ∀ d ∈ L, d ≤ 9) :
    (incFromBack (0 :: L)).2 = 0 := by
  have hc := (incFromBack_spec L hL).2.1
  have h10 : ¬(0 + (incFromBack L).2 = 10) := by omega
  simp only [incFromBack, if_neg h10]

/-- `get_nth_digit` returns a valid digit when the stored ones are valid. -/
theorem getNthDigit_le_nine (ds : List ℕ) (hds : ∀ d ∈ ds, d ≤ 9) (n : ℕ) :
    getNthDigit ds n ≤ 9 := by
  unfold getNthDigit
  by_cases h : ds.length < n
  · simp [h]
  · rw [if_neg h]
    by_cases h2 : n - 1 < ds.length
    · rw [List.getD_eq_getElem ds 0 h2]
      exact hds _ (List.getElem_mem h2)
    · rw [List.getD_eq_default ds 0 (not_lt.mp h2)]
      norm_num

/-- Invariant of the leaf iterator: after `k` increments, `n = k`, the lower
bound is the seeded zero followed by the first `k` stored digits, and the
lower integer part stays 1. -/
theorem leafIter_inv (ds : List ℕ) :
    ∀ k, (leafIter ds k).n = k ∧
      (leafIter ds k).lower
        = 0 :: (List.range k).map (fun i => getNthDigit ds (i + 1)) ∧
      (leafIter ds k).lowerIp = 1 := by
  intro k
  induction k with
  | zero => exact ⟨rfl, rfl, rfl⟩
  | succ k ih =>
      obtain ⟨hn, hlow, hip⟩ := ih
      have hstep : leafIter ds (k + 1) = leafStep ds (leafIter ds k) :=
        Function.iterate_succ_apply' (leafStep ds) k _
      rw [hstep]
      unfold leafStep
      refine ⟨by simp [hn], ?_, by simp [hip]⟩
      simp only [hn, hlow, List.range_succ, List.map_append, List.map_cons,
        List.map_nil, List.cons_append]

/-- C9: after any increment of a leaf iterator over an explicit digit
sequence, the lower bound is the seeded zero followed by the exact digit
prefix read so far (digits past the stored list are zero), and the upper
bound spells exactly one more than the lower bound at the same length — one
added at the last position with the carry propagated into the seeded zero
when all digits are 9. -/
theorem leaf_iterate_prefix (ds : List ℕ) (hds : ∀ d ∈ ds, d ≤ 9) (k : ℕ) :
    (leafIter ds (k + 1)).lower
      = 0 :: (List.range (k + 1)).map (fun i => getNthDigit ds (i + 1)) ∧
    (leafIter ds (k + 1)).upper.length = (leafIter ds (k + 1)).lower.length ∧
    digitsVal (leafIter ds (k + 1)).upper
      = digitsVal (leafIter ds (k + 1)).lower + 1 := by
  obtain ⟨hn, hlow, hip⟩ := leafIter_inv ds k
  have hstep : leafIter ds (k + 1) = leafStep ds (leafIter ds k) :=
    Function.iterate_succ_apply' (leafStep ds) k _
  have hlow1 : (leafIter ds k).lower ++ [getNthDigit ds ((leafIter ds k).n + 1)]
      = 0 :: ((List.range k).map (fun i => getNthDigit ds (i + 1))
          ++ [getNthDigit ds (k + 1)]) := by
    rw [hlow, hn]; rfl
  have hall : ∀ d ∈ (List.range k).map (fun i => getNthDigit ds (i + 1))
      ++ [getNthDigit ds (k + 1)], d ≤ 9 := by
    intro d hd
    rcases List.mem_append.mp hd with h | h
    · obtain ⟨i, _, hi⟩ := List.mem_map.mp h
      rw [← hi]
      exact getNthDigit_le_nine ds hds (i + 1)
    · rw [List.mem_singleton.mp h]
      exact getNthDigit_le_nine ds hds (k + 1)
  have hcz := incFromBack_carry_zero _ hall
  have hspec := incFromBack_spec
    (0 :: ((List.range k).map (fun i => getNthDigit ds (i + 1))
        ++ [getNthDigit ds (k + 1)]))
    (by
      intro d hd
      rcases List.mem_cons.mp hd with h | h
      · omega
      · exact hall d h)
  rw [hstep]
  unfold leafStep
  simp only [hlow1, hcz]
  refine ⟨?_, ?_, ?_⟩
  · simp [List.range_succ]
  · simp only [if_neg (lt_irrefl 0)]
    rw [hspec.1]
  · simp only [if_neg (lt_irrefl 0)]
    have hval := hspec.2.2
    rw [hcz] at hval
    simpa using hval

/-- Witness for `leaf_iterate_prefix`: the stored digits `[9, 9, 9]` after
four increments — the fourth digit is zero padding, and the upper bound
`[1, 0, 0, 0, 0]` is the prefix `[0, 9, 9, 9, 0]` plus one ulp with the
carry propagated into the seeded zero. -/
theorem leaf_iterate_prefix_witness :
    (leafIter [9, 9, 9] 4).lower
      = 0 :: (List.range 4).map (fun i => getNthDigit [9, 9, 9] (i + 1)) ∧
    (leafIter [9, 9, 9] 4).upper.length = (leafIter [9, 9, 9] 4).lower.length ∧
    digitsVal (leafIter [9, 9, 9] 4).upper
      = digitsVal (leafIter [9, 9, 9] 4).lower + 1 :=
  leaf_iterate_prefix [9, 9, 9] (by decide) 3

/-- C8: addition of expression trees is not commutative at the interval
level.  `sumTree4` emits `14.4…` with a two-digit integer part; adding the
leaf `0.9` on the right goes through the misaligned branch of `add_bounds`
(the second alignment loop pads `lhs` instead of `rhs`) and yields the lower
bound `10.44`, while the flipped tree yields the correct `15.3` — the two
intervals differ, and `A + B` is not even a sound enclosure. -/
theorem add_bounds_not_commutative_cx :
    (beginIt (.addE sumTree4 leafNine)).lowerBound
      = [1, 0, 4, 4, 0, 0, 0, 0, 0] ∧
    (beginIt (.addE leafNine sumTree4)).lowerBound
      = [1, 5, 3, 0, 0, 0, 0, 0] ∧
    (beginIt (.addE sumTree4 leafNine)).lowerIntegers = 2 ∧
    (beginIt (.addE leafNine sumTree4)).lowerIntegers = 2 ∧
    ([1, 0, 4, 4, 0, 0, 0, 0, 0] : List ℕ) ≠ [1, 5, 3, 0, 0, 0, 0, 0] := by
  decide

/-- C10: reading a digit of a `real_explicit` past the stored prefix is total
and returns zero. -/
theorem real_explicit_index_total (digits : List ℤ) (n : ℕ)
    (h : digits.length ≤ n) : realExplicitDigit digits n = 0 := by
  unfold realExplicitDigit
  rw [dif_neg (not_lt.mpr h)]

/-- Witness for `real_explicit_index_total`: index 5 of a three-digit
number. -/
theorem real_explicit_index_total_witness :
    realExplicitDigit [1, 2, 3] 5 = 0 :=
  real_explicit_index_total [1, 2, 3] 5 (by norm_num)

end BoostReal
